import Mathlib

set_option autoImplicit false
set_option maxHeartbeats 1000000

/-! Shallow embedding of the DNS C2-hunting notebook (`notebooks/dns.ipynb`),
cell 7 (`shannon_entropy`) and cell 9 (the aggregation pass).  Python strings
are modelled as lists of characters (`Str`), Python dicts as association
lists in insertion order, and the aggregation loop as a left fold over the
rows of the log. -/

/-- Characters of a Python string, modelled as a list of characters. -/
abbrev Str := List Char

/-- Python `s.split(sep)` for a one-character separator `sep`: splits at every
occurrence, keeps empty pieces, and returns `[""]` on the empty string (the
result list is never empty). -/
def splitCh (sep : Char) : Str → List Str
  | [] => [[]]
  | x :: xs =>
    match splitCh sep xs with
    | [] => [[]]
    | y :: ys => if x = sep then [] :: y :: ys else (x :: y) :: ys

/-- Python `row.startswith("#")`. -/
def startsHash : Str → Bool
  | '#' :: _ => true
  | _ => false

/-- Python `".".join(parts)`. -/
def joinDot : List Str → Str
  | [] => []
  | [p] => p
  | p :: q :: rest => p ++ '.' :: joinDot (q :: rest)

/-- Python `l[-2:]`: the last two elements of a list (the whole list when it
has fewer than two elements). -/
def lastTwo {α : Type} (l : List α) : List α :=
  l.drop (l.length - 2)

/-- The derived domain of a query, from cell 9:
`domain = ".".join(query.split(".")[-2:])`. -/
def domainOf (query : Str) : Str :=
  joinDot (lastTwo (splitCh ('.') query))

/-- Whether `pat` is an initial segment of `s` (character-wise). -/
def leadsWith : Str → Str → Bool
  | [], _ => true
  | _ :: _, [] => false
  | p :: ps, x :: xs => p == x && leadsWith ps xs

/-- Left-to-right, non-overlapping removal of every occurrence of a non-empty
pattern `old`, the scan Python's `s.replace(old, "")` performs.  The `Nat`
argument is fuel making the recursion structural; every step consumes at
least one character, so fuel equal to the string's length suffices. -/
def removeAllFuel (old : Str) : Nat → Str → Str
  | _, [] => []
  | 0, s => s
  | n + 1, x :: xs =>
    if leadsWith old (x :: xs) then removeAllFuel old n (xs.drop (old.length - 1))
    else x :: removeAllFuel old n xs

/-- Python `s.replace(old, "")`.  When `old` is empty this is the identity,
which agrees with Python for the one reachable case (`"".replace("", "")`). -/
def removeAll (old s : Str) : Str :=
  match old with
  | [] => s
  | _ :: _ => removeAllFuel old s.length s

/-- The recorded subdomain of a query, from cell 9:
`subdomain = query.replace(domain, "")[:-1]`. -/
def subOf (query : Str) : Str :=
  (removeAll (domainOf query) query).dropLast

/-- Cell 7's `shannon_entropy`: `0` for the empty string, otherwise the sum of
`-p(c) * log2 p(c)` over the distinct characters `c` of the string, where
`p(c)` is the empirical frequency of `c` (Python iterates over
`Counter(data).values()`, one term per distinct character). -/
noncomputable def shannon_entropy (data : Str) : ℝ :=
  if data = [] then 0
  else (data.dedup.map (fun c =>
    -(((data.count c : ℝ) / (data.length : ℝ)) *
      Real.logb 2 ((data.count c : ℝ) / (data.length : ℝ))))).sum

/-- The per-subdomain aggregate: `{"count": ..., "entropy": ...}`. -/
structure SubAgg where
  count : Nat
  entropy : ℝ

/-- The per-domain aggregate: `{"count": ..., "subdomains": {...}}`. -/
structure QAgg where
  count : Nat
  subdomains : List (Str × SubAgg)

/-- The result mapping `queries`: a Python dict in insertion order, modelled
as an association list from domain to `QAgg`. -/
abbrev Queries := List (Str × QAgg)

/-- Dict lookup on an association list (first matching key). -/
def lookupA {α : Type} (k : Str) : List (Str × α) → Option α
  | [] => none
  | (k', v) :: rest => if k' = k then some v else lookupA k rest

/-- Dict update on an association list: apply `f` to the value at the first
occurrence of key `k`, leave the list unchanged when `k` is absent. -/
def updateA {α : Type} (k : Str) (f : α → α) : List (Str × α) → List (Str × α)
  | [] => []
  | (k', v) :: rest => if k' = k then (k', f v) :: rest else (k', v) :: updateA k f rest

/-- Cell 9's `if domain not in queries.keys()` initialization: append a fresh
`{"count": 0, "subdomains": {}}` entry when the domain is new. -/
def insDom (st : Queries) (d : Str) : Queries :=
  if (lookupA d st).isNone then st ++ [(d, ⟨0, []⟩)] else st

/-- Cell 9's `if subdomain not in ...` initialization on the subdomain dict:
append a fresh `{"count": 0, "entropy": shannon_entropy(subdomain)}` entry
when the subdomain is new. -/
noncomputable def subInit (s : Str) (subs : List (Str × SubAgg)) : List (Str × SubAgg) :=
  if (lookupA s subs).isNone then subs ++ [(s, ⟨0, shannon_entropy s⟩)] else subs

/-- Apply `subInit` under domain `d`. -/
noncomputable def insSub (st : Queries) (d s : Str) : Queries :=
  updateA d (fun qa => ⟨qa.count, subInit s qa.subdomains⟩) st

/-- Cell 9's `queries[domain]["count"] += 1`. -/
def bumpDom (st : Queries) (d : Str) : Queries :=
  updateA d (fun qa => ⟨qa.count + 1, qa.subdomains⟩) st

/-- Cell 9's `queries[domain]["subdomains"][subdomain]["count"] += 1`. -/
def bumpSub (st : Queries) (d s : Str) : Queries :=
  updateA d (fun qa =>
    ⟨qa.count, updateA s (fun sa => ⟨sa.count + 1, sa.entropy⟩) qa.subdomains⟩) st

/-- The four mutations cell 9 performs for one accepted record with domain `d`
and subdomain `s`: initialize the domain entry if new, initialize the
subdomain entry (computing its entropy) if new, then increment the domain
count and the subdomain count. -/
noncomputable def record (st : Queries) (d s : Str) : Queries :=
  bumpSub (bumpDom (insSub (insDom st d) d s) d) d s

/-- The query extracted from a row, `splitted_line[9]` (the guard
`len(splitted_line) < 24` always holds before this access in the source, so
the default value is never used there). -/
def field9 (row : Str) : Str :=
  (splitCh ('\t') row).getD 9 []

/-- One iteration of cell 9's `for row in rows` loop: skip comment rows, rows
with fewer than 24 tab-separated fields, and safelisted records; otherwise
record the query's domain and subdomain.  (The source also computes an unused
`domain_entropy`, which has no effect on the state.) -/
noncomputable def stepRow (safelist : List Str) (st : Queries) (row : Str) : Queries :=
  if startsHash row then st
  else if (splitCh ('\t') row).length < 24 then st
  else if domainOf (field9 row) ∈ safelist ∨ field9 row ∈ safelist then st
  else record st (domainOf (field9 row)) (subOf (field9 row))

/-- The aggregation pass over an already-split list of rows, starting from the
empty dict `queries = {}`. -/
noncomputable def aggRows (safelist : List Str) (rows : List Str) : Queries :=
  rows.foldl (stepRow safelist) []

/-- The whole aggregation pass of cell 9: split the log text at newlines and
fold the per-row step over the rows. -/
noncomputable def aggregate (text : Str) (safelist : List Str) : Queries :=
  aggRows safelist (splitCh ('\n') text)

/-- The `count` stored for domain `d` (0 when `d` is not a key). -/
def countD (q : Queries) (d : Str) : Nat :=
  match lookupA d q with
  | none => 0
  | some qa => qa.count

/-- The sum of the subdomain counts stored under domain `d` (0 when `d` is
not a key). -/
def subSum (q : Queries) (d : Str) : Nat :=
  match lookupA d q with
  | none => 0
  | some qa => (qa.subdomains.map (fun e => e.2.count)).sum

/-- The subdomain aggregate stored for subdomain `s` under domain `d`. -/
def lookupSub (q : Queries) (d s : Str) : Option SubAgg :=
  match lookupA d q with
  | none => none
  | some qa => lookupA s qa.subdomains

/-- The domain keys of the result mapping, in insertion order. -/
def domKeys (q : Queries) : List Str :=
  q.map (fun e => e.1)

/-- All subdomain keys appearing anywhere in the result mapping. -/
def subKeys (q : Queries) : List Str :=
  (q.map (fun e => e.2.subdomains.map (fun x => x.1))).flatten

/-- Whether a row survives cell 9's two line filters: it does not start with
`#` and it splits into at least 24 tab-separated fields. -/
def keepRow (row : Str) : Bool :=
  !startsHash row && decide (24 ≤ (splitCh ('\t') row).length)

/-- Re-running cell 9 in a session whose `queries` variable currently holds
`prev`: the cell begins with the assignment `queries = {}`, so the prior
value is discarded and the pass runs from the empty dict. -/
noncomputable def cell9Rerun (prev : Queries) (text : Str) (safelist : List Str) : Queries :=
  let _ := prev
  aggregate text safelist

/-- Modelled from the spec's wording of the entropy formula: minus the sum,
over the set of distinct characters of the string, of `p(c) * log2 p(c)`
with `p(c)` the empirical frequency.  Used to compare `shannon_entropy`
against the spec's closed formula. -/
noncomputable def entropyFormula (data : Str) : ℝ :=
  -∑ c ∈ data.toFinset,
    ((data.count c : ℝ) / (data.length : ℝ)) *
      Real.logb 2 ((data.count c : ℝ) / (data.length : ℝ))

/-- Modelled from the spec's wording of subdomain derivation: the query with
the trailing `.<domain>` suffix removed, and the empty string when the query
equals the domain exactly. -/
def specSubdomain (q d : Str) : Str :=
  if q = d then [] else q.take (q.length - (d.length + 1))

/-- Whether `pat` occurs (as a contiguous substring) anywhere in `s`. -/
def hasOcc (pat : Str) : Str → Bool
  | [] => leadsWith pat []
  | x :: xs => leadsWith pat (x :: xs) || hasOcc pat xs

/-- Python list indexing `l[i]`, raising `IndexError` when out of range. -/
def getE {α : Type} (l : List α) (i : Nat) : Except String α :=
  match l.get? i with
  | none => Except.error "IndexError"
  | some v => Except.ok v

/-- Python dict update `queries[k] = f(queries[k])`, raising `KeyError` when
`k` is absent. -/
def updateAE {α : Type} (k : Str) (f : α → α) (l : List (Str × α)) :
    Except String (List (Str × α)) :=
  match lookupA k l with
  | none => Except.error "KeyError"
  | some _ => Except.ok (updateA k f l)

/-- The four mutations of `record`, with every Python dict read that could
raise `KeyError` modelled fallibly. -/
noncomputable def recordE (st : Queries) (d s : Str) : Except String Queries :=
  match updateAE d (fun qa => ⟨qa.count, subInit s qa.subdomains⟩) (insDom st d) with
  | Except.error e => Except.error e
  | Except.ok st2 =>
    match updateAE d (fun qa => ⟨qa.count + 1, qa.subdomains⟩) st2 with
    | Except.error e => Except.error e
    | Except.ok st3 =>
      match lookupA d st3 with
      | none => Except.error "KeyError"
      | some qa3 =>
        match updateAE s (fun sa => ⟨sa.count + 1, sa.entropy⟩) qa3.subdomains with
        | Except.error e => Except.error e
        | Except.ok subs => Except.ok (updateA d (fun qa => ⟨qa.count, subs⟩) st3)

/-- One loop iteration with Python's fallible list indexing and dict reads
made explicit as `Except`. -/
noncomputable def stepRowE (safelist : List Str) (st : Queries) (row : Str) :
    Except String Queries :=
  if startsHash row then Except.ok st
  else if (splitCh ('\t') row).length < 24 then Except.ok st
  else
    match getE (splitCh ('\t') row) 9 with
    | Except.error e => Except.error e
    | Except.ok query =>
      if domainOf query ∈ safelist ∨ query ∈ safelist then Except.ok st
      else recordE st (domainOf query) (subOf query)

/-- The loop with fallible operations: an exception raised at any row aborts
the whole pass. -/
noncomputable def foldE (safelist : List Str) :
    Queries → List Str → Except String Queries
  | st, [] => Except.ok st
  | st, r :: rest =>
    match stepRowE safelist st r with
    | Except.error e => Except.error e
    | Except.ok st' => foldE safelist st' rest

/-- The whole pass of cell 9 with fallible operations made explicit. -/
noncomputable def aggregateE (text : Str) (safelist : List Str) :
    Except String Queries :=
  foldE safelist [] (splitCh ('\n') text)

/-! Association-list lemmas. -/

theorem lookupA_append_ne {α : Type} (k k' : Str) (v : α) (l : List (Str × α))
    (h : k ≠ k') : lookupA k (l ++ [(k', v)]) = lookupA k l := by
  induction l with
  | nil => simp [lookupA, Ne.symm h]
  | cons e rest ih =>
    obtain ⟨k0, v0⟩ := e
    by_cases hk : k0 = k
    · simp [lookupA, hk]
    · simp [lookupA, hk, ih]

theorem lookupA_append_self {α : Type} (k : Str) (v : α) (l : List (Str × α))
    (h : lookupA k l = none) : lookupA k (l ++ [(k, v)]) = some v := by
  induction l with
  | nil => simp [lookupA]
  | cons e rest ih =>
    obtain ⟨k0, v0⟩ := e
    by_cases hk : k0 = k
    · simp [lookupA, hk] at h
    · simp only [lookupA, hk, if_false] at h
      simp only [List.cons_append, lookupA, hk, if_false]
      exact ih h

theorem lookupA_updateA_self {α : Type} (k : Str) (f : α → α) (l : List (Str × α)) :
    lookupA k (updateA k f l) = (lookupA k l).map f := by
  induction l with
  | nil => simp [lookupA, updateA]
  | cons e rest ih =>
    obtain ⟨k0, v0⟩ := e
    by_cases hk : k0 = k
    · simp [lookupA, updateA, hk]
    · simp [lookupA, updateA, hk, ih]

theorem lookupA_updateA_ne {α : Type} (k k' : Str) (f : α → α) (l : List (Str × α))
    (h : k' ≠ k) : lookupA k' (updateA k f l) = lookupA k' l := by
  induction l with
  | nil => simp [updateA]
  | cons e rest ih =>
    obtain ⟨k0, v0⟩ := e
    by_cases hk : k0 = k
    · subst hk
      simp [lookupA, updateA, Ne.symm h]
    · by_cases hk' : k0 = k'
      · simp [lookupA, updateA, hk, hk', h]
      · simp [lookupA, updateA, hk, hk', ih]

theorem updateA_congr {α : Type} (k : Str) (f : α → α) (v : α) (l : List (Str × α))
    (h : lookupA k l = some v) : updateA k f l = updateA k (fun _ => f v) l := by
  induction l with
  | nil => rfl
  | cons e rest ih =>
    obtain ⟨k0, v0⟩ := e
    by_cases hk : k0 = k
    · simp only [lookupA, hk, if_true, Option.some.injEq] at h
      simp [updateA, hk, h]
    · simp only [lookupA, hk, if_false] at h
      simp [updateA, hk, ih h]

theorem sum_counts_updateA (s : Str) (sa : SubAgg) (l : List (Str × SubAgg))
    (h : lookupA s l = some sa) :
    ((updateA s (fun x => ⟨x.count + 1, x.entropy⟩) l).map (fun e => e.2.count)).sum
      = ((l.map (fun e => e.2.count)).sum) + 1 := by
  induction l with
  | nil => simp [lookupA] at h
  | cons e rest ih =>
    obtain ⟨k0, v0⟩ := e
    by_cases hk : k0 = s
    · simp [updateA, hk]
      omega
    · simp only [lookupA, hk, if_false] at h
      simp only [updateA, hk, if_false, List.map_cons, List.sum_cons, ih h]
      omega

/-! Effect of one `record` on the domain-level count and the sum of the
subdomain counts. -/

theorem lookupA_insDom_self (st : Queries) (d : Str) :
    lookupA d (insDom st d) = some ((lookupA d st).getD ⟨0, []⟩) := by
  unfold insDom
  cases hst : lookupA d st with
  | none => simp [hst, lookupA_append_self d _ st hst]
  | some qa => simp [hst]

theorem lookupA_insDom_ne (st : Queries) (d d' : Str) (h : d' ≠ d) :
    lookupA d' (insDom st d) = lookupA d' st := by
  unfold insDom
  cases hst : lookupA d st with
  | none => simp [hst, lookupA_append_ne d' d _ st h]
  | some qa => simp [hst]

theorem sum_counts_subInit (s : Str) (subs : List (Str × SubAgg)) :
    ((updateA s (fun sa => ⟨sa.count + 1, sa.entropy⟩) (subInit s subs)).map
      (fun e => e.2.count)).sum = ((subs.map (fun e => e.2.count)).sum) + 1 := by
  cases hsub : lookupA s subs with
  | none =>
    have h1 : subInit s subs = subs ++ [(s, ⟨0, shannon_entropy s⟩)] := by
      simp [subInit, hsub]
    rw [h1, sum_counts_updateA s _ _ (lookupA_append_self s _ subs hsub)]
    simp
  | some sa =>
    have h1 : subInit s subs = subs := by simp [subInit, hsub]
    rw [h1, sum_counts_updateA s sa subs hsub]

theorem countD_record (st : Queries) (d0 s0 d : Str) :
    countD (record st d0 s0) d = if d = d0 then countD st d + 1 else countD st d := by
  unfold record bumpSub bumpDom insSub countD
  by_cases hd : d = d0
  · subst hd
    rw [lookupA_updateA_self, lookupA_updateA_self, lookupA_updateA_self,
      lookupA_insDom_self]
    cases hst : lookupA d st with
    | none => simp [hst]
    | some qa => simp [hst]
  · rw [lookupA_updateA_ne _ _ _ _ hd, lookupA_updateA_ne _ _ _ _ hd,
      lookupA_updateA_ne _ _ _ _ hd, lookupA_insDom_ne _ _ _ hd]
    simp [hd]

theorem subSum_record (st : Queries) (d0 s0 d : Str) :
    subSum (record st d0 s0) d = if d = d0 then subSum st d + 1 else subSum st d := by
  unfold record bumpSub bumpDom insSub subSum
  by_cases hd : d = d0
  · subst hd
    rw [lookupA_updateA_self, lookupA_updateA_self, lookupA_updateA_self,
      lookupA_insDom_self]
    cases hst : lookupA d st with
    | none =>
      simp only [hst, Option.getD_none, Option.map_some', if_true, if_pos rfl]
      simp [sum_counts_subInit]
    | some qa =>
      simp only [hst, Option.getD_some, Option.map_some', if_pos rfl]
      simp [sum_counts_subInit]
  · rw [lookupA_updateA_ne _ _ _ _ hd, lookupA_updateA_ne _ _ _ _ hd,
      lookupA_updateA_ne _ _ _ _ hd, lookupA_insDom_ne _ _ _ hd]
    simp [hd]

theorem stepRow_eq_or_record (safelist : List Str) (st : Queries) (row : Str) :
    stepRow safelist st row = st ∨ ∃ d s, stepRow safelist st row = record st d s := by
  unfold stepRow
  split_ifs with h1 h2 h3
  · exact Or.inl rfl
  · exact Or.inl rfl
  · exact Or.inl rfl
  · exact Or.inr ⟨_, _, rfl⟩

theorem c1_aux (safelist : List Str) (rows : List Str) (st : Queries)
    (h : ∀ d, countD st d = subSum st d) (d : Str) :
    countD (rows.foldl (stepRow safelist) st) d
      = subSum (rows.foldl (stepRow safelist) st) d := by
  induction rows generalizing st with
  | nil => exact h d
  | cons r rest ih =>
    refine ih (stepRow safelist st r) ?_
    intro d'
    rcases stepRow_eq_or_record safelist st r with he | ⟨d0, s0, he⟩
    · rw [he]
      exact h d'
    · rw [he, countD_record, subSum_record]
      by_cases hd : d' = d0
      · subst hd
        simp [h d']
      · simp [hd, h d']

/-! Lookup through one `record`. -/

theorem lookupA_record_self (st : Queries) (d0 s0 : Str) :
    lookupA d0 (record st d0 s0) = some
      ⟨((lookupA d0 st).getD ⟨0, []⟩).count + 1,
        updateA s0 (fun sa => ⟨sa.count + 1, sa.entropy⟩)
          (subInit s0 ((lookupA d0 st).getD ⟨0, []⟩).subdomains)⟩ := by
  unfold record bumpSub bumpDom insSub
  rw [lookupA_updateA_self, lookupA_updateA_self, lookupA_updateA_self,
    lookupA_insDom_self]
  rfl

theorem lookupA_record_ne (st : Queries) (d0 s0 d : Str) (h : d ≠ d0) :
    lookupA d (record st d0 s0) = lookupA d st := by
  unfold record bumpSub bumpDom insSub
  rw [lookupA_updateA_ne _ _ _ _ h, lookupA_updateA_ne _ _ _ _ h,
    lookupA_updateA_ne _ _ _ _ h, lookupA_insDom_ne _ _ _ h]

theorem lookupA_subInit_self (s : Str) (l : List (Str × SubAgg)) :
    lookupA s (subInit s l) = some ((lookupA s l).getD ⟨0, shannon_entropy s⟩) := by
  unfold subInit
  cases hs : lookupA s l with
  | none => simp [hs, lookupA_append_self s _ l hs]
  | some sa => simp [hs]

theorem lookupA_subInit_ne (s s' : Str) (l : List (Str × SubAgg)) (h : s' ≠ s) :
    lookupA s' (subInit s l) = lookupA s' l := by
  unfold subInit
  cases hs : lookupA s l with
  | none => simp [hs, lookupA_append_ne s' s _ l h]
  | some sa => simp [hs]

theorem lookupSub_record (st : Queries) (d0 s0 d s : Str) :
    lookupSub (record st d0 s0) d s =
      if d = d0 ∧ s = s0 then
        some (match lookupSub st d0 s0 with
          | none => ⟨1, shannon_entropy s0⟩
          | some sa => ⟨sa.count + 1, sa.entropy⟩)
      else lookupSub st d s := by
  unfold lookupSub
  by_cases hd : d = d0
  · subst hd
    by_cases hss : s = s0
    · subst hss
      simp only [lookupA_record_self, lookupA_updateA_self, lookupA_subInit_self]
      cases hst : lookupA d st with
      | none => simp [lookupA]
      | some qa =>
        simp only [Option.getD_some]
        cases hsub : lookupA s qa.subdomains <;> simp
    · simp only [lookupA_record_self, lookupA_updateA_ne _ _ _ _ hss,
        lookupA_subInit_ne _ _ _ hss]
      cases hst : lookupA d st with
      | none => simp [lookupA, hss]
      | some qa => simp [hss]
  · simp only [lookupA_record_ne _ _ _ _ hd]
    simp [hd]

/-! Claim C1. -/

/-- C1: for every log text and safelist, in the mapping returned by the
aggregator each domain's stored count equals the sum of the `count` fields
over all subdomain entries of that domain (both sides read as 0 for a domain
that is not a key). -/
theorem domain_count_eq_subdomain_sum (text : Str) (safelist : List Str) (d : Str) :
    countD (aggregate text safelist) d = subSum (aggregate text safelist) d := by
  unfold aggregate aggRows
  exact c1_aux safelist _ [] (fun _ => rfl) d

/-! Claim C8. -/

/-- C8: the aggregator is deterministic — cell 9 begins with the assignment
`queries = {}`, so re-running it on the same log text and safelist from any
two prior session states yields identical result mappings. -/
theorem aggregator_deterministic (prev prev' : Queries) (text : Str)
    (safelist : List Str) :
    cell9Rerun prev text safelist = cell9Rerun prev' text safelist := rfl

/-! Claim C6. -/

theorem stepRow_skip (safelist : List Str) (st : Queries) (row : Str)
    (h : keepRow row = false) : stepRow safelist st row = st := by
  unfold stepRow
  by_cases h1 : startsHash row
  · simp [h1]
  · have h2 : (splitCh ('\t') row).length < 24 := by
      simp [keepRow, h1] at h
      omega
    simp [h1, h2]

theorem foldl_filter_keep (safelist : List Str) (rows : List Str) (st : Queries) :
    rows.foldl (stepRow safelist) st = (rows.filter keepRow).foldl (stepRow safelist) st := by
  induction rows generalizing st with
  | nil => rfl
  | cons r rest ih =>
    by_cases hk : keepRow r
    · simp only [List.filter_cons, hk, if_true, List.foldl_cons]
      exact ih (stepRow safelist st r)
    · have hk' : keepRow r = false := by simpa using hk
      simp only [List.filter_cons, hk', Bool.false_eq_true, if_false, List.foldl_cons,
        stepRow_skip safelist st r hk']
      exact ih st

/-- C6: lines that start with `#` and lines that split into fewer than 24
tab-separated fields contribute nothing: aggregating a log equals aggregating
the same log with those lines deleted (`keepRow` keeps exactly the lines that
do not start with `#` and have at least 24 fields). -/
theorem skipped_lines_contribute_nothing (text : Str) (safelist : List Str) :
    aggregate text safelist
      = aggRows safelist ((splitCh ('\n') text).filter keepRow) :=
  foldl_filter_keep safelist _ []

/-! Claim C7. -/

theorem c7_aux (safelist : List Str) (rows : List Str) (st : Queries)
    (h : ∀ d s sa, lookupSub st d s = some sa → sa.entropy = shannon_entropy s)
    (d s : Str) (sa : SubAgg)
    (hs : lookupSub (rows.foldl (stepRow safelist) st) d s = some sa) :
    sa.entropy = shannon_entropy s := by
  induction rows generalizing st with
  | nil => exact h d s sa hs
  | cons r rest ih =>
    refine ih (stepRow safelist st r) ?_ hs
    intro d' s' sa' hs'
    rcases stepRow_eq_or_record safelist st r with he | ⟨d0, s0, he⟩
    · rw [he] at hs'
      exact h d' s' sa' hs'
    · rw [he, lookupSub_record] at hs'
      by_cases hds : d' = d0 ∧ s' = s0
      · rw [if_pos hds] at hs'
        obtain ⟨hd, hss⟩ := hds
        subst hd
        subst hss
        cases hsub : lookupSub st d' s' with
        | none =>
          rw [hsub] at hs'
          simp only [Option.some.injEq] at hs'
          rw [← hs']
        | some sa0 =>
          rw [hsub] at hs'
          simp only [Option.some.injEq] at hs'
          rw [← hs']
          exact h d' s' sa0 hsub
      · rw [if_neg hds] at hs'
        exact h d' s' sa' hs'

/-- C7: in every result mapping, the entropy stored for subdomain `s` under
domain `d` equals the Shannon entropy of the string `s` itself: it is set
when `s` is first inserted under `d` and never changed by later occurrences. -/
theorem subdomain_entropy_pure (text : Str) (safelist : List Str) (d s : Str)
    (sa : SubAgg) (hs : lookupSub (aggregate text safelist) d s = some sa) :
    sa.entropy = shannon_entropy s := by
  unfold aggregate aggRows at hs
  exact c7_aux safelist _ [] (fun d' s' sa' h' => by simp [lookupSub, lookupA] at h') d s sa hs

/-! Claim C2. -/

theorem stepRow_cases_safelist (safelist : List Str) (st : Queries) (row : Str) :
    stepRow safelist st row = st ∨
      ∃ q, ¬(domainOf q ∈ safelist ∨ q ∈ safelist) ∧
        stepRow safelist st row = record st (domainOf q) (subOf q) := by
  unfold stepRow
  split_ifs with h1 h2 h3
  · exact Or.inl rfl
  · exact Or.inl rfl
  · exact Or.inl rfl
  · exact Or.inr ⟨_, h3, rfl⟩

theorem stepRow_safelisted_skip (safelist : List Str) (st : Queries) (row : Str)
    (h : domainOf (field9 row) ∈ safelist ∨ field9 row ∈ safelist) :
    stepRow safelist st row = st := by
  unfold stepRow
  split_ifs with h1 h2
  · rfl
  · rfl
  · rfl

theorem c2_aux (safelist : List Str) (rows : List Str) (st : Queries) (s : Str)
    (hs : s ∈ safelist) (h : lookupA s st = none) :
    lookupA s (rows.foldl (stepRow safelist) st) = none := by
  induction rows generalizing st with
  | nil => exact h
  | cons r rest ih =>
    refine ih (stepRow safelist st r) ?_
    rcases stepRow_cases_safelist safelist st r with he | ⟨q, hq, he⟩
    · rw [he]
      exact h
    · rw [he, lookupA_record_ne]
      · exact h
      · intro hds
        exact hq (Or.inl (by rw [← hds]; exact hs))

/-- C2 (amended): a record whose derived domain is in the safelist or whose
full query string equals a safelist entry contributes nothing (the loop body
leaves the state unchanged), and a safelisted string never appears as a
domain key of the result mapping.  (As stated the claim is false: a
safelisted string can still appear as a subdomain key — see the
counterexample.) -/
theorem safelisted_excluded_amended (text : Str) (safelist : List Str) (s : Str)
    (hs : s ∈ safelist) :
    lookupA s (aggregate text safelist) = none ∧
      ∀ st row, (domainOf (field9 row) = s ∨ field9 row = s) →
        stepRow safelist st row = st := by
  constructor
  · exact c2_aux safelist _ [] s hs rfl
  · intro st row h
    refine stepRow_safelisted_skip safelist st row ?_
    rcases h with h | h
    · exact Or.inl (by rw [h]; exact hs)
    · exact Or.inr (by rw [h]; exact hs)

/-- A log line of 24 tab-separated fields whose field 9 is
`mail.example.com` (all other fields empty): the spec's main scenario. -/
def mailLine : Str := List.replicate 9 '\t' ++ ("mail.example.com").data ++ List.replicate 14 '\t'

/-- A log line of 24 tab-separated fields whose field 9 is
`example.com.evil.org` (all other fields empty). -/
def orgLine : Str := List.replicate 9 '\t' ++ ("example.com.evil.org").data ++ List.replicate 14 '\t'

/-- C2 witness: `example.com` is in the safelist `["example.com"]`, and with
the scenario line whose query is `mail.example.com` it is not a domain key of
the result. -/
theorem safelisted_excluded_amended_witness :
    (("example.com").data ∈ [("example.com").data]) ∧
      lookupA (("example.com").data) (aggregate mailLine [("example.com").data]) = none :=
  ⟨by decide, (safelisted_excluded_amended mailLine [("example.com").data]
    (("example.com").data) (by decide)).1⟩

/-- C2 counterexample: with safelist `["example.com"]` and a single record
whose query is `example.com.evil.org`, the derived domain is `evil.org`, the
record is processed, and the safelisted string `example.com` appears as a
subdomain key of the result — refuting the claim that a safelisted string
never appears as a key anywhere in the result mapping. -/
theorem safelisted_as_subdomain_key_counterexample :
    (("example.com").data ∈ [("example.com").data]) ∧
      (("example.com").data ∈ subKeys (aggregate orgLine [("example.com").data])) := by
  constructor
  · decide
  · decide

/-! Claim C5. -/

theorem recordE_ok (st : Queries) (d s : Str) :
    recordE st d s = Except.ok (record st d s) := by
  have h1 : lookupA d (insDom st d) = some ((lookupA d st).getD ⟨0, []⟩) :=
    lookupA_insDom_self st d
  have h2 : lookupA d (insSub (insDom st d) d s)
      = some ⟨((lookupA d st).getD ⟨0, []⟩).count,
          subInit s ((lookupA d st).getD ⟨0, []⟩).subdomains⟩ := by
    unfold insSub
    rw [lookupA_updateA_self, h1]
    rfl
  have h3 : lookupA d (bumpDom (insSub (insDom st d) d s) d)
      = some ⟨((lookupA d st).getD ⟨0, []⟩).count + 1,
          subInit s ((lookupA d st).getD ⟨0, []⟩).subdomains⟩ := by
    unfold bumpDom
    rw [lookupA_updateA_self, h2]
    rfl
  have h4 : lookupA s (subInit s ((lookupA d st).getD ⟨0, []⟩).subdomains)
      = some ((lookupA s ((lookupA d st).getD ⟨0, []⟩).subdomains).getD
          ⟨0, shannon_entropy s⟩) :=
    lookupA_subInit_self s _
  unfold recordE record bumpSub
  unfold insSub at h2 h3 ⊢
  unfold bumpDom at h3 ⊢
  simp only [updateAE, h1, h2, h3, h4]
  rw [updateA_congr d
      (fun qa => (⟨qa.count, updateA s (fun sa => ⟨sa.count + 1, sa.entropy⟩)
        (subInit s ((lookupA d st).getD ⟨0, []⟩).subdomains)⟩ : QAgg)) _ _ h3,
    updateA_congr d
      (fun qa => (⟨qa.count, updateA s (fun sa => ⟨sa.count + 1, sa.entropy⟩)
        qa.subdomains⟩ : QAgg)) _ _ h3]

theorem stepRowE_ok (safelist : List Str) (st : Queries) (row : Str) :
    stepRowE safelist st row = Except.ok (stepRow safelist st row) := by
  unfold stepRowE stepRow
  by_cases h1 : startsHash row
  · simp [h1]
  · by_cases h2 : (splitCh ('\t') row).length < 24
    · simp [h1, h2]
    · have hlen : 9 < (splitCh ('\t') row).length := by omega
      have h9 : (splitCh ('\t') row).get? 9 = some (field9 row) := by
        cases hg : (splitCh ('\t') row).get? 9 with
        | none =>
          rw [List.get?_eq_none] at hg
          omega
        | some q =>
          have hq : field9 row = q := by
            unfold field9
            rw [List.getD_eq_getD_get?, hg]
            rfl
          rw [hq]
      simp only [h1, h2, Bool.false_eq_true, if_false, getE, h9]
      by_cases h3 : domainOf (field9 row) ∈ safelist ∨ field9 row ∈ safelist
      · simp [h3]
      · simp [h3, recordE_ok]

theorem foldE_ok (safelist : List Str) (rows : List Str) (st : Queries) :
    foldE safelist st rows = Except.ok (rows.foldl (stepRow safelist) st) := by
  induction rows generalizing st with
  | nil => rfl
  | cons r rest ih =>
    unfold foldE
    rw [stepRowE_ok]
    exact ih (stepRow safelist st r)

/-- C5: the aggregation pass is total.  With Python's fallible list indexing
and dict reads modelled explicitly as `Except`, the pass never reaches an
error for any input text (including lines with at least 24 fields but
arbitrary field-9 values) and any safelist: it returns `ok` of the total
model's mapping, and malformed lines are silently dropped rather than
surfaced as errors. -/
theorem aggregation_never_raises (text : Str) (safelist : List Str) :
    aggregateE text safelist = Except.ok (aggregate text safelist) :=
  foldE_ok safelist _ []

/-- C7 witness: in the result for the scenario line, the entry stored for
subdomain `mail` under domain `example.com` exists, and the theorem yields
that its entropy field equals `shannon_entropy "mail"`. -/
theorem subdomain_entropy_pure_witness :
    lookupSub (aggregate mailLine []) (("example.com").data) (("mail").data)
        = some ⟨1, shannon_entropy (("mail").data)⟩ ∧
      (⟨1, shannon_entropy (("mail").data)⟩ : SubAgg).entropy
        = shannon_entropy (("mail").data) :=
  ⟨rfl, subdomain_entropy_pure mailLine [] (("example.com").data) (("mail").data)
    ⟨1, shannon_entropy (("mail").data)⟩ rfl⟩

/-! Claim C9. -/

/-- C9: for a log consisting of one data line (not starting with `#`) with at
least 24 tab-separated fields whose field 9 is `mail.example.com`, run with
an empty safelist, the result is exactly the mapping with the single domain
key `example.com` (count 1) holding the single subdomain key `mail` with
count 1 and entropy `shannon_entropy "mail"`. -/
theorem single_mail_line_result (row : Str)
    (h1 : startsHash row = false)
    (h2 : 24 ≤ (splitCh ('\t') row).length)
    (h3 : field9 row = ("mail.example.com").data) :
    aggRows [] [row]
      = [(("example.com").data,
          ⟨1, [(("mail").data, ⟨1, shannon_entropy (("mail").data)⟩)]⟩)] := by
  have h2' : ¬((splitCh ('\t') row).length < 24) := by omega
  unfold aggRows
  simp only [List.foldl_cons, List.foldl_nil]
  unfold stepRow
  rw [h3]
  simp only [h1, Bool.false_eq_true, if_false, h2', List.not_mem_nil, or_self]
  rfl

/-- C9 witness: the scenario line satisfies the three hypotheses, and the
theorem yields the exact one-domain, one-subdomain result. -/
theorem single_mail_line_result_witness :
    startsHash mailLine = false ∧ 24 ≤ (splitCh ('\t') mailLine).length ∧
      field9 mailLine = ("mail.example.com").data ∧
      aggRows [] [mailLine]
        = [(("example.com").data,
            ⟨1, [(("mail").data, ⟨1, shannon_entropy (("mail").data)⟩)]⟩)] :=
  ⟨by decide, by decide, by decide,
    single_mail_line_result mailLine (by decide) (by decide) (by decide)⟩

/-! Claim C10. -/

theorem splitCh_eq_self (c : Char) (s : Str) (h : c ∉ s) : splitCh c s = [s] := by
  induction s with
  | nil => rfl
  | cons x xs ih =>
    have hx : ¬(x = c) := fun hc => h (hc ▸ List.mem_cons_self x xs)
    have hxs : c ∉ xs := fun hc => h (List.mem_cons_of_mem x hc)
    unfold splitCh
    rw [ih hxs]
    simp [hx]

theorem domainOf_dotless (q : Str) (h : ('.') ∉ q) : domainOf q = q := by
  unfold domainOf lastTwo
  rw [splitCh_eq_self _ _ h]
  rfl

theorem leadsWith_refl (s : Str) : leadsWith s s = true := by
  induction s with
  | nil => rfl
  | cons x xs ih => simp [leadsWith, ih]

theorem removeAll_self (q : Str) : removeAll q q = [] := by
  cases q with
  | nil => rfl
  | cons x xs =>
    show removeAllFuel (x :: xs) (xs.length + 1) (x :: xs) = []
    rw [removeAllFuel]
    rw [leadsWith_refl]
    simp [removeAllFuel, List.drop_length]

theorem subOf_dotless (q : Str) (h : ('.') ∉ q) : subOf q = [] := by
  unfold subOf
  rw [domainOf_dotless q h, removeAll_self]
  rfl

/-- C10: for a data line (not starting with `#`) with at least 24 fields
whose field 9 contains no dot — including the empty string — and is not
safelisted, the derived domain equals the whole query string, the derived
subdomain is the empty string (whose entropy is 0), and the loop iteration
records the row under that domain key with subdomain key `""`. -/
theorem dotless_query_counted_under_itself (safelist : List Str) (st : Queries)
    (row : Str)
    (h1 : startsHash row = false)
    (h2 : 24 ≤ (splitCh ('\t') row).length)
    (h3 : ('.') ∉ field9 row)
    (h4 : field9 row ∉ safelist) :
    domainOf (field9 row) = field9 row ∧ subOf (field9 row) = [] ∧
      shannon_entropy [] = 0 ∧ stepRow safelist st row = record st (field9 row) [] := by
  have h2' : ¬((splitCh ('\t') row).length < 24) := by omega
  refine ⟨domainOf_dotless _ h3, subOf_dotless _ h3, rfl, ?_⟩
  unfold stepRow
  rw [domainOf_dotless _ h3, subOf_dotless _ h3]
  simp [h1, h2', h4]

/-- A log line of 24 tab-separated fields whose field 9 is the dotless query
`localhost` (all other fields empty). -/
def localhostLine : Str := List.replicate 9 '\t' ++ ("localhost").data ++ List.replicate 14 '\t'

/-- C10 witness: the dotless line satisfies the hypotheses and the theorem
yields the conclusion at it. -/
theorem dotless_query_counted_under_itself_witness :
    startsHash localhostLine = false ∧ 24 ≤ (splitCh ('\t') localhostLine).length ∧
      ('.') ∉ field9 localhostLine ∧ field9 localhostLine ∉ ([] : List Str) ∧
      (domainOf (field9 localhostLine) = field9 localhostLine ∧
        subOf (field9 localhostLine) = [] ∧ shannon_entropy [] = 0 ∧
        stepRow [] [] localhostLine = record [] (field9 localhostLine) []) :=
  ⟨by decide, by decide, by decide, by decide,
    dotless_query_counted_under_itself [] [] localhostLine
      (by decide) (by decide) (by decide) (by decide)⟩

/-! Claim C3. -/

theorem splitCh_ne_nil (c : Char) (s : Str) : splitCh c s ≠ [] := by
  cases s with
  | nil => simp [splitCh]
  | cons x xs =>
    unfold splitCh
    cases splitCh c xs with
    | nil => simp
    | cons y ys => by_cases hx : x = c <;> simp [hx]

theorem joinDot_splitCh (q : Str) : joinDot (splitCh ('.') q) = q := by
  induction q with
  | nil => rfl
  | cons x xs ih =>
    unfold splitCh
    cases hs : splitCh ('.') xs with
    | nil => exact absurd hs (splitCh_ne_nil ('.') xs)
    | cons y ys =>
      rw [hs] at ih
      by_cases hx : x = '.'
      · subst hx
        show joinDot (if ('.' : Char) = '.' then [] :: y :: ys else ('.' :: y) :: ys)
          = '.' :: xs
        rw [if_pos rfl]
        exact congrArg (fun t => '.' :: t) ih
      · show joinDot (if x = '.' then [] :: y :: ys else (x :: y) :: ys) = x :: xs
        rw [if_neg hx]
        cases ys with
        | nil => exact congrArg (fun t => x :: t) ih
        | cons z zs => exact congrArg (fun t => x :: t) ih

theorem joinDot_append (l1 l2 : List Str) (h1 : l1 ≠ []) (h2 : l2 ≠ []) :
    joinDot (l1 ++ l2) = joinDot l1 ++ '.' :: joinDot l2 := by
  induction l1 with
  | nil => exact absurd rfl h1
  | cons a l1' ih =>
    cases l1' with
    | nil =>
      cases l2 with
      | nil => exact absurd rfl h2
      | cons b l2' => rfl
    | cons a' l1'' =>
      have hrec := ih (List.cons_ne_nil a' l1'')
      show a ++ '.' :: joinDot ((a' :: l1'') ++ l2)
        = (a ++ '.' :: joinDot (a' :: l1'')) ++ '.' :: joinDot l2
      rw [hrec]
      simp [List.append_assoc]

theorem lastTwo_ne_nil {α : Type} (l : List α) (h : l ≠ []) : lastTwo l ≠ [] := by
  unfold lastTwo
  intro hd
  rw [List.drop_eq_nil_iff] at hd
  have hlen : l.length = 0 := by omega
  exact h (List.length_eq_zero.mp hlen)

theorem domainOf_suffix (q : Str) : ∃ pre, q = pre ++ domainOf q := by
  unfold domainOf
  cases htake : (splitCh ('.') q).take ((splitCh ('.') q).length - 2) with
  | nil =>
    refine ⟨[], ?_⟩
    have hsplit : splitCh ('.') q = lastTwo (splitCh ('.') q) := by
      conv_lhs => rw [← List.take_append_drop ((splitCh ('.') q).length - 2)
        (splitCh ('.') q)]
      rw [htake]
      rfl
    rw [List.nil_append, ← hsplit, joinDot_splitCh]
  | cons p ps =>
    refine ⟨joinDot (p :: ps) ++ ['.'], ?_⟩
    have hsplit : splitCh ('.') q = (p :: ps) ++ lastTwo (splitCh ('.') q) := by
      conv_lhs => rw [← List.take_append_drop ((splitCh ('.') q).length - 2)
        (splitCh ('.') q)]
      rw [htake]
      rfl
    have h2 : lastTwo (splitCh ('.') q) ≠ [] :=
      lastTwo_ne_nil _ (splitCh_ne_nil ('.') q)
    calc q = joinDot (splitCh ('.') q) := (joinDot_splitCh q).symm
    _ = joinDot ((p :: ps) ++ lastTwo (splitCh ('.') q)) := by rw [← hsplit]
    _ = joinDot (p :: ps) ++ '.' :: joinDot (lastTwo (splitCh ('.') q)) :=
        joinDot_append _ _ (List.cons_ne_nil p ps) h2
    _ = (joinDot (p :: ps) ++ ['.']) ++ joinDot (lastTwo (splitCh ('.') q)) := by
        simp

theorem leadsWith_length (pat s : Str) (h : leadsWith pat s = true) :
    pat.length ≤ s.length := by
  induction pat generalizing s with
  | nil => simp
  | cons p ps ih =>
    cases s with
    | nil => simp [leadsWith] at h
    | cons x xs =>
      simp only [leadsWith, Bool.and_eq_true, beq_iff_eq] at h
      have := ih xs h.2
      simp only [List.length_cons]
      omega

theorem leadsWith_take (pat s : Str) (m : Nat) (h : leadsWith pat s = true)
    (hm : pat.length ≤ m) : leadsWith pat (s.take m) = true := by
  induction pat generalizing s m with
  | nil => rfl
  | cons p ps ih =>
    cases s with
    | nil => simp [leadsWith] at h
    | cons x xs =>
      cases m with
      | zero => simp at hm
      | succ m' =>
        simp only [leadsWith, Bool.and_eq_true, beq_iff_eq] at h
        have hm' : ps.length ≤ m' := by
          simp only [List.length_cons] at hm
          omega
        simp only [List.take_succ_cons, leadsWith, Bool.and_eq_true, beq_iff_eq]
        exact ⟨h.1, ih xs m' h.2 hm'⟩

theorem hasOcc_of_leadsWith (pat s : Str) (h : leadsWith pat s = true) :
    hasOcc pat s = true := by
  cases s with
  | nil => exact h
  | cons x xs => simp [hasOcc, h]

theorem hasOcc_nil_pat (l : Str) : hasOcc [] l = true := by
  cases l <;> simp [hasOcc, leadsWith]

theorem removeAllFuel_no_inner (pat : Str) (hne : pat ≠ []) (q : Str) :
    ∀ fuel, q.length ≤ fuel → (∃ pre, q = pre ++ pat) →
      hasOcc pat q.dropLast = false →
      removeAllFuel pat fuel q = q.take (q.length - pat.length) := by
  induction q with
  | nil =>
    intro fuel _ hsuf _
    obtain ⟨pre, hpre⟩ := hsuf
    exact absurd (List.append_eq_nil.mp hpre.symm).2 hne
  | cons x xs ih =>
    intro fuel hf hsuf hocc
    obtain ⟨pre, hpre⟩ := hsuf
    cases fuel with
    | zero => simp at hf
    | succ n =>
      by_cases hlw : leadsWith pat (x :: xs) = true
      · by_cases heq : (x :: xs).length = pat.length
        · have hpre0 : pre = [] := by
            have hl := congrArg List.length hpre
            simp only [List.length_append] at hl
            have : pre.length = 0 := by omega
            exact List.length_eq_zero.mp this
          subst hpre0
          rw [List.nil_append] at hpre
          subst hpre
          simp only [removeAllFuel, leadsWith_refl, if_true, List.length_cons,
            Nat.add_sub_cancel, List.drop_length, Nat.sub_self, List.take_zero]
        · exfalso
          have hlen : pat.length ≤ (x :: xs).length := leadsWith_length _ _ hlw
          have h1 : leadsWith pat ((x :: xs).dropLast) = true := by
            rw [List.dropLast_eq_take]
            refine leadsWith_take pat _ _ hlw ?_
            simp only [List.length_cons] at hlen heq ⊢
            omega
          have h2 := hasOcc_of_leadsWith pat _ h1
          rw [hocc] at h2
          exact Bool.noConfusion h2
      · have hxs_suf : ∃ pre', xs = pre' ++ pat := by
          cases pre with
          | nil =>
            rw [List.nil_append] at hpre
            exact absurd (by rw [hpre]; exact leadsWith_refl pat) hlw
          | cons a pre' =>
            rw [List.cons_append] at hpre
            injection hpre with _ hxs
            exact ⟨pre', hxs⟩
        obtain ⟨pre', hpre'⟩ := hxs_suf
        have hxs_ne : xs ≠ [] := by
          rw [hpre']
          intro hc
          exact hne (List.append_eq_nil.mp hc).2
        have hocc' : hasOcc pat xs.dropLast = false := by
          have hdl : (x :: xs).dropLast = x :: xs.dropLast := by
            cases xs with
            | nil => exact absurd rfl hxs_ne
            | cons z zs => rfl
          rw [hdl] at hocc
          simp only [hasOcc, Bool.or_eq_false_iff] at hocc
          exact hocc.2
        have hstep : removeAllFuel pat (n + 1) (x :: xs)
            = x :: removeAllFuel pat n xs := by
          simp only [removeAllFuel]
          rw [if_neg hlw]
        have hfn : xs.length ≤ n := by
          simp only [List.length_cons] at hf
          omega
        rw [hstep, ih n hfn ⟨pre', hpre'⟩ hocc']
        have hplen : pat.length ≤ xs.length := by
          have hl := congrArg List.length hpre'
          simp only [List.length_append] at hl
          omega
        have harith : (x :: xs).length - pat.length = (xs.length - pat.length) + 1 := by
          simp only [List.length_cons]
          omega
        rw [harith, List.take_succ_cons]

theorem removeAll_no_inner (pat q : Str) (hne : pat ≠ [])
    (hsuf : ∃ pre, q = pre ++ pat) (hocc : hasOcc pat q.dropLast = false) :
    removeAll pat q = q.take (q.length - pat.length) := by
  unfold removeAll
  cases pat with
  | nil => exact absurd rfl hne
  | cons p ps =>
    exact removeAllFuel_no_inner (p :: ps) hne q q.length le_rfl hsuf hocc

/-- C3 (amended): for a processed record with query `q` and derived domain
`d = domainOf q`, whenever `d` occurs in `q` only as the trailing suffix
(formally: `d` has no occurrence inside `q` with its final character
removed), the recorded subdomain equals `q` with the trailing `.<d>` suffix
removed — the empty string when `q` equals `d` exactly.  Without that
hypothesis the code's `query.replace(domain, "")[:-1]` removes every
occurrence of the domain, not only the trailing suffix (see the
counterexample). -/
theorem subdomain_strip_amended (q : Str)
    (h : hasOcc (domainOf q) q.dropLast = false) :
    subOf q = specSubdomain q (domainOf q) := by
  by_cases hq : q = domainOf q
  · unfold subOf specSubdomain
    rw [if_pos hq, ← hq, removeAll_self]
    rfl
  · by_cases hdnil : domainOf q = []
    · exfalso
      rw [hdnil, hasOcc_nil_pat] at h
      exact Bool.noConfusion h
    · obtain ⟨pre, hpre⟩ := domainOf_suffix q
      have hmain := removeAll_no_inner (domainOf q) q hdnil ⟨pre, hpre⟩ h
      unfold subOf specSubdomain
      rw [if_neg hq, hmain]
      have hdle : (domainOf q).length ≤ q.length := by
        have hl := congrArg List.length hpre
        simp only [List.length_append] at hl
        omega
      rw [List.dropLast_eq_take, List.take_take, List.length_take]
      congr 1
      omega

/-- C3 witness: for the query `mail.example.com` the domain `example.com`
occurs only as the trailing suffix, and the recorded subdomain agrees with
the spec formula. -/
theorem subdomain_strip_amended_witness :
    hasOcc (domainOf (("mail.example.com").data))
        ((("mail.example.com").data).dropLast) = false ∧
      subOf (("mail.example.com").data)
        = specSubdomain (("mail.example.com").data)
            (domainOf (("mail.example.com").data)) :=
  ⟨by decide, subdomain_strip_amended (("mail.example.com").data) (by decide)⟩

/-- A log line of 24 tab-separated fields whose field 9 is
`evil.org.evil.org` (all other fields empty). -/
def evilEvilLine : Str :=
  List.replicate 9 '\t' ++ ("evil.org.evil.org").data ++ List.replicate 14 '\t'

/-- C3 counterexample: for the query `evil.org.evil.org` the derived domain
is `evil.org`; the claim's formula (remove only the trailing `.evil.org`)
yields `evil.org`, but the code removes both occurrences of the domain and
records the empty string as the subdomain key, as the aggregated result for
a one-line log shows. -/
theorem subdomain_strip_counterexample :
    domainOf (("evil.org.evil.org").data) = ("evil.org").data ∧
      specSubdomain (("evil.org.evil.org").data) (("evil.org").data)
        = ("evil.org").data ∧
      subOf (("evil.org.evil.org").data) = [] ∧
      subOf (("evil.org.evil.org").data)
        ≠ specSubdomain (("evil.org.evil.org").data) (("evil.org").data) ∧
      (lookupSub (aggRows [] [evilEvilLine]) (("evil.org").data)
        (("evil.org").data)).isNone = true ∧
      (lookupSub (aggRows [] [evilEvilLine]) (("evil.org").data) []).isSome = true :=
  ⟨by decide, by decide, by decide, by decide, by decide, by decide⟩

/-! Claim C4. -/

theorem sum_map_neg_eq (l : List Char) (g : Char → ℝ) :
    (l.map (fun c => -(g c))).sum = -((l.map g).sum) := by
  induction l with
  | nil => simp
  | cons x xs ih =>
    simp only [List.map_cons, List.sum_cons, ih]
    ring

theorem shannon_entropy_eq_formula (s : Str) :
    shannon_entropy s = entropyFormula s := by
  by_cases hs : s = []
  · subst hs
    simp [shannon_entropy, entropyFormula]
  · unfold shannon_entropy entropyFormula
    rw [if_neg hs, sum_map_neg_eq]
    congr 1

/-- C4: the entropy function computes the spec's formula
`-Σ p(c)·log2 p(c)` over the distinct characters of the string (formalized
as `entropyFormula`); in particular it returns 0 for the empty string, 0 for
every string of identical characters, and `log2 k` for every non-empty
string whose `k` distinct characters all occur with the same count (i.e.
equal frequency `1/k`). -/
theorem shannon_entropy_spec :
    (∀ s : Str, shannon_entropy s = entropyFormula s) ∧
      shannon_entropy [] = 0 ∧
      (∀ (c : Char) (n : Nat), shannon_entropy (List.replicate n c) = 0) ∧
      (∀ (s : Str) (m : Nat), s ≠ [] → (∀ c ∈ s.dedup, s.count c = m) →
        shannon_entropy s = Real.logb 2 ((s.dedup.length : ℝ))) := by
  refine ⟨shannon_entropy_eq_formula, rfl, ?_, ?_⟩
  · intro c n
    cases n with
    | zero => rfl
    | succ m =>
      unfold shannon_entropy
      rw [if_neg (by simp)]
      refine List.sum_eq_zero ?_
      intro x hx
      rw [List.mem_map] at hx
      obtain ⟨c', hc', hxeq⟩ := hx
      have hcc : c' = c := List.eq_of_mem_replicate (List.mem_dedup.mp hc')
      subst hcc
      rw [← hxeq]
      have hcount : (List.replicate (m + 1) c').count c' = m + 1 :=
        List.count_replicate_self c' (m + 1)
      have hlen : (List.replicate (m + 1) c').length = m + 1 :=
        List.length_replicate (m + 1) c'
      rw [hcount, hlen]
      have hp : (((m + 1 : Nat) : ℝ) / ((m + 1 : Nat) : ℝ)) = 1 :=
        div_self (Nat.cast_ne_zero.mpr (Nat.succ_ne_zero m))
      rw [hp, Real.logb_one]
      ring
  · intro s m hs hm
    unfold shannon_entropy
    rw [if_neg hs]
    have hdne : s.dedup ≠ [] := fun hd => hs ((List.dedup_eq_nil s).mp hd)
    have hk : 0 < s.dedup.length := List.length_pos.mpr hdne
    have hm0 : 0 < m := by
      obtain ⟨c0, hc0⟩ := List.exists_mem_of_ne_nil s hs
      have hc0d : c0 ∈ s.dedup := List.mem_dedup.mpr hc0
      have hcnt := hm c0 hc0d
      have hpos : 0 < s.count c0 := List.count_pos_iff.mpr hc0
      omega
    have hk' : ((s.dedup.length : ℝ)) ≠ 0 := Nat.cast_ne_zero.mpr (by omega)
    have hm' : ((m : ℝ)) ≠ 0 := Nat.cast_ne_zero.mpr (by omega)
    have hlen : s.length = s.dedup.length * m := by
      have h1 := List.sum_map_count_dedup_eq_length s
      rw [List.map_congr_left hm, List.map_const', List.sum_replicate,
        smul_eq_mul] at h1
      omega
    have hmap : s.dedup.map (fun c =>
          -(((s.count c : ℝ) / (s.length : ℝ)) *
            Real.logb 2 ((s.count c : ℝ) / (s.length : ℝ))))
        = s.dedup.map (fun _ =>
            ((s.dedup.length : ℝ))⁻¹ * Real.logb 2 ((s.dedup.length : ℝ))) := by
      refine List.map_congr_left ?_
      intro c hc
      rw [hm c hc, hlen, Nat.cast_mul]
      have hp : (m : ℝ) / ((s.dedup.length : ℝ) * (m : ℝ))
          = ((s.dedup.length : ℝ))⁻¹ := by
        rw [mul_comm ((s.dedup.length : ℝ)) ((m : ℝ)), ← div_div, div_self hm',
          one_div]
      rw [hp, Real.logb_inv]
      ring
    rw [hmap, List.map_const', List.sum_replicate, nsmul_eq_mul, ← mul_assoc,
      mul_inv_cancel₀ hk', one_mul]

/-- C4 witness: the string `ab` is non-empty, each of its 2 distinct
characters occurs once, and the theorem yields that its entropy is
`log2 2`. -/
theorem shannon_entropy_spec_witness :
    ((("ab").data ≠ []) ∧ (∀ c ∈ (("ab").data).dedup, (("ab").data).count c = 1)) ∧
      shannon_entropy (("ab").data)
        = Real.logb 2 ((((("ab").data).dedup.length : Nat) : ℝ)) :=
  ⟨⟨by decide, by decide⟩,
    shannon_entropy_spec.2.2.2 (("ab").data) 1 (by decide) (by decide)⟩
